import Mathlib

/-!
Verification of the incremental XML walker in `converter/table_to_csv.py`.

The development shallowly embeds the program:

* `Elem` models an lxml element (tag, text, children); attributes play no
  role in the claims and are omitted.
* `PEvent` models the low-level parse actions the lxml event source
  performs while scanning the byte stream: a namespace declaration
  (yielded to the loop as a `start-ns` event), opening an element
  (building it and attaching it to its parent), and closing an element
  (yielded to the loop as an `end` event when it matches the tag filter).
* `WState`/`step` model one iteration of `XMLParser.fast_iteration`,
  including the in-place mutation of `self.callable_kwargs` and the fact
  that the single `namespaces` dictionary object is shared by reference
  (`KwVal.nsRef`) with every handler invocation.
* `XDoc`/`docEvents` generate the event sequence of a well-formed
  document, so theorems quantified over `XDoc` cover exactly the
  well-formed inputs.
-/

set_option autoImplicit false

mutual

/-- An lxml element as seen by the walker: tag, text, ordered children. -/
inductive Elem where
  | node (tag : String) (text : Option String) (children : Elems)
deriving DecidableEq

/-- Ordered list of child elements (a first-order list so that all
definitions compute by structural recursion). -/
inductive Elems where
  | nil
  | cons (e : Elem) (es : Elems)
deriving DecidableEq

end

/-- Convert an ordinary list of elements into `Elems`. -/
def Elems.ofList : List Elem → Elems
  | [] => Elems.nil
  | e :: es => Elems.cons e (Elems.ofList es)

/-- Convert `Elems` back into an ordinary list. -/
def Elems.toList : Elems → List Elem
  | Elems.nil => []
  | Elems.cons e es => e :: Elems.toList es

/-- The tag of an element. -/
def Elem.tag : Elem → String
  | Elem.node t _ _ => t

/-- The text of an element. -/
def Elem.text : Elem → Option String
  | Elem.node _ tx _ => tx

/-- The children of an element. -/
def Elem.children : Elem → Elems
  | Elem.node _ _ cs => cs

/-- Parse actions produced by the event source (`etree.iterparse` with
`events=(start-ns, end)`).  `startNs` is delivered to the loop as a
`start-ns` event; `closeTag` is delivered as an `end` event when the tag
filter matches; `openTag` is internal tree building and is never seen by
the loop. -/
inductive PEvent where
  | startNs (px : String) (uri : String)
  | openTag (tag : String) (text : Option String)
  | closeTag
deriving DecidableEq

/-- A Python value stored in a keyword-argument dictionary: either a plain
string or a reference to the one live `namespaces` dictionary created at
the top of `fast_iteration`. -/
inductive KwVal where
  | s (v : String)
  | nsRef
deriving DecidableEq

/-- Lookup in an insertion-ordered dictionary (first matching key). -/
def dictGet {α : Type} (m : List (String × α)) (k : String) : Option α :=
  match m with
  | [] => none
  | p :: rest => if p.1 = k then some p.2 else dictGet rest k

/-- Insert-or-overwrite in an insertion-ordered dictionary, keeping the
position of an existing key — the Python `dict` update semantics used by
`namespaces[prefix] = url` and `callable_kwargs.update(...)`. -/
def dictSet {α : Type} (m : List (String × α)) (k : String) (v : α) : List (String × α) :=
  match m with
  | [] => [(k, v)]
  | p :: rest => if p.1 = k then (k, v) :: rest else p :: dictSet rest k v

/-- Lines 70-74 of the source: record a `start-ns` event in the
`namespaces` dictionary, storing the empty default under the literal
key `ns`. -/
def observe (m : List (String × String)) (pu : String × String) : List (String × String) :=
  dictSet m (if pu.1 = "" then "ns" else pu.1) pu.2

/-- An open element on the chain from the document root to the current
parse position: its tag and text, plus the completed children attached to
it so far that have not been pruned away. -/
structure Frame where
  tag : String
  text : Option String
  done : List Elem
deriving DecidableEq

/-- One handler invocation
`self.python_callable(element, *self.callable_args, **self.callable_kwargs)`.
`kwargs` is the fresh dictionary produced by `**`-unpacking at call time;
its values (in particular `KwVal.nsRef`) are shared references.  `nsNow`
is an observation field recording the contents of the `namespaces`
dictionary at the moment of the call, used to state snapshot claims. -/
structure Dispatch where
  elem : Elem
  args : List String
  kwargs : List (String × KwVal)
  nsNow : List (String × String)
deriving DecidableEq

/-- The state of one `fast_iteration` run: the chain of currently open
ancestors (`stack`, innermost first), the contents of the single
`namespaces` dictionary, the contents of the single `callable_kwargs`
dictionary, whether that dictionary is the very object the caller passed
to `__init__` (Python `callable_kwargs or {}` keeps the caller object
only when it is truthy), the fixed positional arguments, the handler
invocations so far, and the completed root once the document ends. -/
structure WState where
  stack : List Frame
  ns : List (String × String)
  kwargs : List (String × KwVal)
  sameObj : Bool
  args : List String
  dispatches : List Dispatch
  rootOut : Option Elem
deriving DecidableEq

/-- Does an end event for tag `t` reach the loop?  `iterparse` filters
element events by the optional `tag` argument; no filter means every end
event is delivered. -/
def matchB (φ : Option String) (t : String) : Bool :=
  match φ with
  | none => true
  | some s => s = t

/-- Lines 38-41 of the source: `callable_args or []` and
`callable_kwargs or {}`.  A caller dictionary is kept (aliased) only when
it is non-empty; otherwise a fresh empty dictionary is created. -/
def initState (a : List String) (ck : Option (List (String × KwVal))) : WState :=
  { stack := []
    ns := []
    kwargs := match ck with | none => [] | some d => if d = [] then [] else d
    sameObj := match ck with | none => false | some d => !d.isEmpty
    args := a
    dispatches := []
    rootOut := none }

/-- One iteration of the loop in `fast_iteration` (lines 69-83), plus the
tree building done internally by `iterparse` for `openTag`.

On a delivered end event the code updates `callable_kwargs` with the live
`namespaces` reference when that dictionary is non-empty, invokes the
handler, clears the element (dropping its text and children), and then
for every node on the path from the root to the element deletes the first
child of the parent of that node while the node still has a preceding
sibling — which empties the completed-children list of every open
ancestor and leaves the cleared element as the only completed child of
its parent. -/
def step (φ : Option String) (st : WState) : PEvent → WState
  | PEvent.startNs px uri => { st with ns := observe st.ns (px, uri) }
  | PEvent.openTag t tx => { st with stack := { tag := t, text := tx, done := [] } :: st.stack }
  | PEvent.closeTag =>
      match st.stack with
      | [] => st
      | f :: rest =>
        let e := Elem.node f.tag f.text (Elems.ofList f.done)
        if matchB φ f.tag then
          let merged := if st.ns = [] then st.kwargs else dictSet st.kwargs "namespaces" KwVal.nsRef
          let disp : Dispatch := { elem := e, args := st.args, kwargs := merged, nsNow := st.ns }
          let cleared := Elem.node f.tag none Elems.nil
          match rest with
          | [] =>
              { st with stack := [], kwargs := merged,
                        dispatches := st.dispatches ++ [disp], rootOut := some cleared }
          | g :: gs =>
              { st with stack := { g with done := [cleared] } :: gs.map (fun fr => { fr with done := [] }),
                        kwargs := merged, dispatches := st.dispatches ++ [disp] }
        else
          match rest with
          | [] => { st with stack := [], rootOut := some e }
          | g :: gs => { st with stack := { g with done := g.done ++ [e] } :: gs }

/-- A whole `fast_iteration` run over a sequence of parse events. -/
def fast_iteration (φ : Option String) (a : List String)
    (ck : Option (List (String × KwVal))) (evs : List PEvent) : WState :=
  evs.foldl (step φ) (initState a ck)

mutual

/-- A well-formed XML document: namespace declarations appearing on the
element, its tag, its text, and its child documents. -/
inductive XDoc where
  | node (decls : List (String × String)) (tag : String) (text : Option String) (children : XDocs)
deriving DecidableEq

/-- Ordered list of sibling documents. -/
inductive XDocs where
  | nil
  | cons (c : XDoc) (cs : XDocs)
deriving DecidableEq

end

mutual

/-- The parse-event sequence of a well-formed document: namespace
declarations fire just before the element opens, the end event fires
after all children have ended. -/
def docEvents : XDoc → List PEvent
  | XDoc.node ds t tx cs =>
      ds.map (fun p => PEvent.startNs p.1 p.2) ++
        PEvent.openTag t tx :: (docEventsL cs ++ [PEvent.closeTag])

/-- Event sequences of a sibling list, concatenated in document order. -/
def docEventsL : XDocs → List PEvent
  | XDocs.nil => []
  | XDocs.cons c cs => docEvents c ++ docEventsL cs

end

mutual

/-- The tags of a document in end-event (post) order — the order in which
`iterparse` delivers end events. -/
def postTags : XDoc → List String
  | XDoc.node _ t _ cs => postTagsL cs ++ [t]

/-- Post-order tags of a sibling list. -/
def postTagsL : XDocs → List String
  | XDocs.nil => []
  | XDocs.cons c cs => postTags c ++ postTagsL cs

end

/-- Run `fast_iteration` on the event sequence of a well-formed document. -/
def runDoc (φ : Option String) (a : List String)
    (ck : Option (List (String × KwVal))) (d : XDoc) : WState :=
  fast_iteration φ a ck (docEvents d)

/-- The raw `(prefix, uri)` payloads of the `start-ns` events in an event
sequence, in order. -/
def nsEventsOf (evs : List PEvent) : List (String × String) :=
  evs.filterMap (fun e =>
    match e with
    | PEvent.startNs px uri => some (px, uri)
    | _ => none)

/-- The contents of the `namespaces` dictionary after a sequence of
`start-ns` observations. -/
def nsAccum (ops : List (String × String)) : List (String × String) :=
  ops.foldl observe []

/-- Declarative description of last-writer-wins lookup: the value of the
last observation whose normalized key (empty becomes `ns`) equals `key`. -/
def lastBinding : List (String × String) → String → Option String
  | [], _ => none
  | p :: rest, key =>
      match lastBinding rest key with
      | some v => some v
      | none => if key = (if p.1 = "" then "ns" else p.1) then some p.2 else none

/-- Dereference a keyword-argument value against the current contents of
the live `namespaces` dictionary: only the shared reference denotes that
dictionary. -/
def derefKw (current : List (String × String)) : Option KwVal → Option (List (String × String))
  | some KwVal.nsRef => some current
  | some (KwVal.s _) => none
  | none => none

/-- The literal reachability invariant of the claim: every node reachable
from the document root is an open ancestor or a completed child of one,
so every completed child attached to an open frame must be childless. -/
def doneLeaves (st : WState) : Prop :=
  ∀ f ∈ st.stack, ∀ c ∈ f.done, c.children = Elems.nil

/-- Modelled from the words of claim C3, which reads: for each ancestor
on the path from the element to the root, repeatedly delete that
ancestor own first child while the ancestor still has a preceding
sibling.  The preceding siblings of an open frame are the `done` list of
the enclosing frame, so the rule drains the `done` list of the ancestor
itself whenever the enclosing frame holds a completed sibling.  The loop
is given the reading most favorable to the claim: it stops once the
ancestor has no completed child left to delete. -/
def claimedPrune : List Frame → List Frame
  | [] => []
  | [r] => [r]
  | a :: b :: rest =>
      (if b.done ≠ [] then { a with done := [] } else a) :: claimedPrune (b :: rest)

/-- The walker with the pruning mechanism replaced by the one the words
of claim C3 describe (`claimedPrune`); everything else is identical to
`step`.  Used only to compare the claimed mechanism with the code. -/
def stepClaimed (φ : Option String) (st : WState) : PEvent → WState
  | PEvent.startNs px uri => { st with ns := observe st.ns (px, uri) }
  | PEvent.openTag t tx => { st with stack := { tag := t, text := tx, done := [] } :: st.stack }
  | PEvent.closeTag =>
      match st.stack with
      | [] => st
      | f :: rest =>
        let e := Elem.node f.tag f.text (Elems.ofList f.done)
        if matchB φ f.tag then
          let merged := if st.ns = [] then st.kwargs else dictSet st.kwargs "namespaces" KwVal.nsRef
          let disp : Dispatch := { elem := e, args := st.args, kwargs := merged, nsNow := st.ns }
          let cleared := Elem.node f.tag none Elems.nil
          match rest with
          | [] =>
              { st with stack := [], kwargs := merged,
                        dispatches := st.dispatches ++ [disp], rootOut := some cleared }
          | g :: gs =>
              { st with stack := claimedPrune ({ g with done := g.done ++ [cleared] } :: gs),
                        kwargs := merged, dispatches := st.dispatches ++ [disp] }
        else
          match rest with
          | [] => { st with stack := [], rootOut := some e }
          | g :: gs => { st with stack := { g with done := g.done ++ [e] } :: gs }

/-- Run the claim-worded variant of the walker on a document. -/
def runClaimedDoc (φ : Option String) (a : List String)
    (ck : Option (List (String × KwVal))) (d : XDoc) : WState :=
  (docEvents d).foldl (stepClaimed φ) (initState a ck)

/-- The file system as the lifecycle guard sees it: the size of each
existing regular file, and whether deleting a path fails with a
permission-style error. -/
structure FS where
  size : String → Option Nat
  locked : String → Bool

/-- Lines 87-92 of the source:
`os.path.isfile(file) and os.path.getsize(file) > 0`. -/
def is_non_empty_file (fs : FS) (file : String) : Bool :=
  match fs.size file with
  | some n => decide (0 < n)
  | none => false

/-- Outcome of compiling the optional schema bytes with
`etree.XMLSchema(etree.XML(schema))`: absent, compiling, or raising.
Schema parsing itself is the external library and is kept abstract. -/
inductive SchemaArg where
  | noSchema
  | wellFormed
  | malformed
deriving DecidableEq

/-- The errors `XMLParser.__init__` can raise before iteration starts, in
the order the code checks for them: the `TypeError` for a non-callable
handler (line 35), the schema compilation error (line 44), and the
`RuntimeError` for an empty or missing input file (line 58) — the
`InputUnavailable` condition of the specification. -/
inductive InitError where
  | notCallable
  | schemaParseError
  | emptyOrMissingInput
deriving DecidableEq

/-- Lines 26-58 of the source: `XMLParser.__init__`.  `d` is the document
the event source produces for the bytes of the file at `path`
(byte-level XML parsing is the external collaborator). -/
def xmlParserInit (callableOk : Bool) (schema : SchemaArg) (fs : FS) (path : String)
    (φ : Option String) (a : List String) (ck : Option (List (String × KwVal)))
    (d : XDoc) : Except InitError WState :=
  if !callableOk then Except.error InitError.notCallable
  else if schema = SchemaArg.malformed then Except.error InitError.schemaParseError
  else if is_non_empty_file fs path then Except.ok (runDoc φ a ck d)
  else Except.error InitError.emptyOrMissingInput

/-- `os.remove`: raises `OSError` with `errno.ENOENT` (2) for a missing
path, a permission-style `OSError` (errno 13) for a locked path, and
otherwise removes the file.  Errors are the raised errno. -/
def os_remove (fs : FS) (file : String) : FS × Except Nat Unit :=
  match fs.size file with
  | none => (fs, Except.error 2)
  | some _ =>
      if fs.locked file then (fs, Except.error 13)
      else ({ fs with size := fun p => if p = file then none else fs.size p }, Except.ok ())

/-- The message an `OSError` prints; the exact text comes from the OS and
only its presence matters to the claims. -/
def os_error_str (e : Nat) (file : String) : String :=
  "[Errno " ++ toString e ++ "] " ++ file

/-- Lines 94-105 of the source: `XMLParser.delete_file`.  The result is
`Except` over the errno an uncaught exception would carry; the `try`
block catches every `OSError`, prints the non-`ENOENT` ones, and never
re-raises, so every branch ends in `Except.ok` with the printed lines. -/
def delete_file (fs : FS) (file : String) : Except Nat (FS × List String) :=
  match os_remove fs file with
  | (fs2, Except.ok _) => Except.ok (fs2, ["File deleted: " ++ file ++ "."])
  | (fs2, Except.error e) =>
      if e ≠ 2 then Except.ok (fs2, [os_error_str e file ++ "."])
      else Except.ok (fs2, [])

/-- The error the handler `convert_to_csv` can raise: the
`XPathEvalError` lxml raises when an XPath expression uses a prefix that
the supplied namespace mapping does not define. -/
inductive HErr where
  | xpathUndefinedPrefix
deriving DecidableEq

/-- Line 115 of the source:
`element.xpath("ns:c1/text()", namespaces=namespaces)`.  With no mapping,
or a mapping that does not bind `ns`, lxml raises `XPathEvalError:
Undefined namespace prefix`; otherwise the expression selects the text of
the children whose tag is the Clark form of `c1` under the bound URI. -/
def xpathNsC1Text (nsArg : Option (List (String × String))) (e : Elem) :
    Except HErr (List String) :=
  match nsArg with
  | none => Except.error HErr.xpathUndefinedPrefix
  | some m =>
      match dictGet m "ns" with
      | none => Except.error HErr.xpathUndefinedPrefix
      | some uri =>
          Except.ok (((e.children.toList.filter
            (fun c => c.tag = "\x7b" ++ uri ++ "\x7d" ++ "c1")).filterMap Elem.text))

/-- Lines 108-121 of the source: `convert_to_csv`.  The output file is
modeled as its list of rows; a row is the semicolon-joined text of the
immediate children (the simple fields of the example need no CSV
quoting).  The debugging `print` on line 115 evaluates the XPath
expression first and aborts the handler when it raises. -/
def convert_to_csv (e : Elem) (csvLines : List String)
    (nsArg : Option (List (String × String))) : Except HErr (List String) := do
  let _ ← xpathNsC1Text nsArg e
  Except.ok (csvLines ++
    [String.intercalate ";" (e.children.toList.map (fun c => c.text.getD ""))])

/-- Follows the words of the specification for claim C5: a handler that
appends one semicolon-joined row of the immediate children texts per
matched element — the CSV-writing part of `convert_to_csv` without the
debugging XPath print. -/
def specRowHandler (csvLines : List String) (e : Elem) : List String :=
  csvLines ++ [String.intercalate ";" (e.children.toList.map (fun c => c.text.getD ""))]

/-- A complete `convert_to_csv` session over a document: the walker
produces the handler invocations in order, and the handler runs on each
with the namespace mapping its keyword arguments deliver, dereferenced at
call time; the first raised error aborts the session (fail fast), leaving
the rows written so far unwritten beyond that point. -/
def runCsvSession (d : XDoc) (φ : Option String) : Except HErr (List String) :=
  (runDoc φ [] (some [("csv_file", KwVal.s "out.csv")]) d).dispatches.foldlM
    (fun lines dr => convert_to_csv dr.elem lines (derefKw dr.nsNow (dictGet dr.kwargs "namespaces")))
    []

/-- The input document of claim C5:
`<root><r><c1>A</c1><c2>B</c2></r><r><c1>C</c1><c2>D</c2></r></root>`. -/
def csvExampleDoc : XDoc :=
  XDoc.node [] "root" none (XDocs.cons
    (XDoc.node [] "r" none (XDocs.cons
      (XDoc.node [] "c1" (some "A") XDocs.nil) (XDocs.cons
      (XDoc.node [] "c2" (some "B") XDocs.nil) XDocs.nil)))
    (XDocs.cons
      (XDoc.node [] "r" none (XDocs.cons
        (XDoc.node [] "c1" (some "C") XDocs.nil) (XDocs.cons
        (XDoc.node [] "c2" (some "D") XDocs.nil) XDocs.nil)))
      XDocs.nil))

/-- A document with a completed two-level subtree still attached when a
namespace declaration arrives: `<root><x><y/></x><a xmlns:p="u"><r/></a></root>`. -/
def invariantBreakDoc : XDoc :=
  XDoc.node [] "root" none (XDocs.cons
    (XDoc.node [] "x" none (XDocs.cons (XDoc.node [] "y" none XDocs.nil) XDocs.nil))
    (XDocs.cons
      (XDoc.node [("p", "u")] "a" none (XDocs.cons (XDoc.node [] "r" none XDocs.nil) XDocs.nil))
      XDocs.nil))

/-- A document separating the code pruning from the claimed pruning:
`<root><x/><a><r/></a></root>` with filter `r`. -/
def pruneCompareDoc : XDoc :=
  XDoc.node [] "root" none (XDocs.cons
    (XDoc.node [] "x" none XDocs.nil)
    (XDocs.cons
      (XDoc.node [] "a" none (XDocs.cons (XDoc.node [] "r" none XDocs.nil) XDocs.nil))
      XDocs.nil))

/-- A document declaring one namespace before the first end event and a
second one after it: `<root xmlns:a="u1"><e1/><e2 xmlns:b="u2"/></root>`. -/
def nsAliasDoc : XDoc :=
  XDoc.node [("a", "u1")] "root" none (XDocs.cons
    (XDoc.node [] "e1" none XDocs.nil)
    (XDocs.cons (XDoc.node [("b", "u2")] "e2" none XDocs.nil) XDocs.nil))

/-- A default dispatch record, used to read a concrete run without
binders. -/
def dispDefault : Dispatch :=
  { elem := Elem.node "" none Elems.nil, args := [], kwargs := [], nsNow := [] }

instance (st : WState) : Decidable (doneLeaves st) :=
  inferInstanceAs (Decidable (∀ f ∈ st.stack, ∀ c ∈ f.done, c.children = Elems.nil))

theorem dictGet_dictSet {α : Type} (m : List (String × α)) (k k2 : String) (v : α) :
    dictGet (dictSet m k v) k2 = if k2 = k then some v else dictGet m k2 := by
  induction m with
  | nil =>
    by_cases h : k2 = k
    · subst h; simp [dictGet, dictSet]
    · simp [dictGet, dictSet, h, Ne.symm h]
  | cons p rest ih =>
    by_cases h1 : p.1 = k
    · by_cases h : k2 = k
      · subst h; simp [dictGet, dictSet, h1]
      · simp [dictGet, dictSet, h1, h, Ne.symm h]
    · by_cases h : k2 = k
      · subst h; simp [dictGet, dictSet, h1, ih]
      · simp [dictGet, dictSet, h1, h, ih]

theorem dictSet_ne_nil {α : Type} (m : List (String × α)) (k : String) (v : α) :
    dictSet m k v ≠ [] := by
  cases m with
  | nil => simp [dictSet]
  | cons p rest =>
    by_cases h : p.1 = k <;> simp [dictSet, h]

theorem step_startNs_eq (φ : Option String) (st : WState) (px uri : String) :
    step φ st (PEvent.startNs px uri) = { st with ns := observe st.ns (px, uri) } := rfl

theorem step_openTag_eq (φ : Option String) (st : WState) (t : String) (tx : Option String) :
    step φ st (PEvent.openTag t tx)
      = { st with stack := { tag := t, text := tx, done := [] } :: st.stack } := rfl

theorem step_close_nil (φ : Option String) (st : WState) (h : st.stack = []) :
    step φ st PEvent.closeTag = st := by
  simp only [step, h]

theorem step_close_root (φ : Option String) (st : WState) (f : Frame)
    (h : st.stack = [f]) (hm : matchB φ f.tag = true) :
    step φ st PEvent.closeTag =
      { st with stack := [],
                kwargs := if st.ns = [] then st.kwargs else dictSet st.kwargs "namespaces" KwVal.nsRef,
                dispatches := st.dispatches ++
                  [{ elem := Elem.node f.tag f.text (Elems.ofList f.done), args := st.args,
                     kwargs := if st.ns = [] then st.kwargs else dictSet st.kwargs "namespaces" KwVal.nsRef,
                     nsNow := st.ns }],
                rootOut := some (Elem.node f.tag none Elems.nil) } := by
  simp only [step, h, hm, if_true]

theorem step_close_cons (φ : Option String) (st : WState) (f g : Frame) (gs : List Frame)
    (h : st.stack = f :: g :: gs) (hm : matchB φ f.tag = true) :
    step φ st PEvent.closeTag =
      { st with stack := { g with done := [Elem.node f.tag none Elems.nil] }
                  :: gs.map (fun fr => { fr with done := [] }),
                kwargs := if st.ns = [] then st.kwargs else dictSet st.kwargs "namespaces" KwVal.nsRef,
                dispatches := st.dispatches ++
                  [{ elem := Elem.node f.tag f.text (Elems.ofList f.done), args := st.args,
                     kwargs := if st.ns = [] then st.kwargs else dictSet st.kwargs "namespaces" KwVal.nsRef,
                     nsNow := st.ns }] } := by
  simp only [step, h, hm, if_true]

theorem step_close_root_nomatch (φ : Option String) (st : WState) (f : Frame)
    (h : st.stack = [f]) (hm : matchB φ f.tag = false) :
    step φ st PEvent.closeTag =
      { st with stack := [], rootOut := some (Elem.node f.tag f.text (Elems.ofList f.done)) } := by
  simp only [step, h, hm, Bool.false_eq_true, if_false]

theorem step_close_cons_nomatch (φ : Option String) (st : WState) (f g : Frame) (gs : List Frame)
    (h : st.stack = f :: g :: gs) (hm : matchB φ f.tag = false) :
    step φ st PEvent.closeTag =
      { st with stack := { g with done := g.done ++ [Elem.node f.tag f.text (Elems.ofList f.done)] } :: gs } := by
  simp only [step, h, hm, Bool.false_eq_true, if_false]

theorem step_args (φ : Option String) (st : WState) (e : PEvent) :
    (step φ st e).args = st.args := by
  cases e with
  | startNs px uri => rfl
  | openTag t tx => rfl
  | closeTag =>
    rcases h : st.stack with _ | ⟨f, rest⟩
    · rw [step_close_nil φ st h]
    · rcases hm : matchB φ f.tag with _ | _
      · rcases rest with _ | ⟨g, gs⟩
        · rw [step_close_root_nomatch φ st f h hm]
        · rw [step_close_cons_nomatch φ st f g gs h hm]
      · rcases rest with _ | ⟨g, gs⟩
        · rw [step_close_root φ st f h hm]
        · rw [step_close_cons φ st f g gs h hm]

theorem step_close_ns (φ : Option String) (st : WState) :
    (step φ st PEvent.closeTag).ns = st.ns := by
  rcases h : st.stack with _ | ⟨f, rest⟩
  · rw [step_close_nil φ st h]
  · rcases hm : matchB φ f.tag with _ | _
    · rcases rest with _ | ⟨g, gs⟩
      · rw [step_close_root_nomatch φ st f h hm]
      · rw [step_close_cons_nomatch φ st f g gs h hm]
    · rcases rest with _ | ⟨g, gs⟩
      · rw [step_close_root φ st f h hm]
      · rw [step_close_cons φ st f g gs h hm]

theorem fold_args (φ : Option String) (evs : List PEvent) :
    ∀ st : WState, (evs.foldl (step φ) st).args = st.args := by
  induction evs with
  | nil => intro st; rfl
  | cons e rest ih =>
    intro st
    rw [List.foldl_cons, ih, step_args]

theorem fold_ns (φ : Option String) (evs : List PEvent) :
    ∀ st : WState, (evs.foldl (step φ) st).ns = (nsEventsOf evs).foldl observe st.ns := by
  induction evs with
  | nil => intro st; rfl
  | cons e rest ih =>
    intro st
    cases e with
    | startNs px uri =>
      rw [List.foldl_cons, ih, step_startNs_eq]
      simp [nsEventsOf]
    | openTag t tx =>
      rw [List.foldl_cons, ih, step_openTag_eq]
      simp [nsEventsOf]
    | closeTag =>
      rw [List.foldl_cons, ih]
      simp [nsEventsOf, step_close_ns]

theorem dictGet_foldl_observe (ops : List (String × String)) :
    ∀ (m : List (String × String)) (key : String),
      dictGet (ops.foldl observe m) key = (lastBinding ops key).or (dictGet m key) := by
  induction ops with
  | nil => intro m key; simp [lastBinding]
  | cons p rest ih =>
    intro m key
    rw [List.foldl_cons, ih]
    simp only [lastBinding]
    rcases hlb : lastBinding rest key with _ | v
    · simp only [Option.or]
      by_cases h : key = (if p.1 = "" then "ns" else p.1)
      · simp [h, observe, dictGet_dictSet]
      · simp [h, observe, dictGet_dictSet]
    · simp [Option.or]

theorem lastBinding_append (l1 l2 : List (String × String)) (key : String) :
    lastBinding (l1 ++ l2) key = (lastBinding l2 key).or (lastBinding l1 key) := by
  induction l1 with
  | nil => simp [lastBinding, Option.or]; rcases lastBinding l2 key with _ | v <;> simp
  | cons p rest ih =>
    simp only [List.cons_append, lastBinding, List.append_eq]
    rw [ih]
    rcases lastBinding l2 key with _ | v <;> rcases lastBinding rest key with _ | w <;> simp [Option.or]

theorem nsEventsOf_append (l1 l2 : List PEvent) :
    nsEventsOf (l1 ++ l2) = nsEventsOf l1 ++ nsEventsOf l2 := by
  simp [nsEventsOf, List.filterMap_append]

theorem step_ns_nil (φ : Option String) (st : WState) (e : PEvent)
    (h : (step φ st e).ns = []) : st.ns = [] ∧ (step φ st e).kwargs = st.kwargs := by
  cases e with
  | startNs px uri =>
    rw [step_startNs_eq] at h
    exact absurd h (dictSet_ne_nil _ _ _)
  | openTag t tx => exact ⟨h, rfl⟩
  | closeTag =>
    have hns : (step φ st PEvent.closeTag).ns = st.ns := step_close_ns φ st
    refine ⟨hns ▸ h, ?_⟩
    have hst : st.ns = [] := hns ▸ h
    rcases hstk : st.stack with _ | ⟨f, rest⟩
    · rw [step_close_nil φ st hstk]
    · rcases hm : matchB φ f.tag with _ | _
      · rcases rest with _ | ⟨g, gs⟩
        · rw [step_close_root_nomatch φ st f hstk hm]
        · rw [step_close_cons_nomatch φ st f g gs hstk hm]
      · rcases rest with _ | ⟨g, gs⟩
        · rw [step_close_root φ st f hstk hm]; simp [hst]
        · rw [step_close_cons φ st f g gs hstk hm]; simp [hst]

theorem fold_ns_nil (φ : Option String) (evs : List PEvent) :
    ∀ st : WState, (evs.foldl (step φ) st).ns = [] →
      st.ns = [] ∧ (evs.foldl (step φ) st).kwargs = st.kwargs := by
  induction evs with
  | nil => intro st h; exact ⟨h, rfl⟩
  | cons e rest ih =>
    intro st h
    rw [List.foldl_cons] at h ⊢
    obtain ⟨h1, h2⟩ := ih (step φ st e) h
    obtain ⟨h3, h4⟩ := step_ns_nil φ st e h1
    exact ⟨h3, h2.trans h4⟩

theorem step_close_match_doneLeaves (φ : Option String) (st : WState) (f : Frame)
    (rest : List Frame) (h : st.stack = f :: rest) (hm : matchB φ f.tag = true) :
    doneLeaves (step φ st PEvent.closeTag) := by
  rcases rest with _ | ⟨g, gs⟩
  · rw [step_close_root φ st f h hm]
    intro fr hfr
    simp at hfr
  · rw [step_close_cons φ st f g gs h hm]
    intro fr hfr c hc
    simp only [List.mem_cons] at hfr
    rcases hfr with hfr | hfr
    · subst hfr
      simp only [List.mem_singleton] at hc
      subst hc
      rfl
    · rcases List.mem_map.mp hfr with ⟨fr0, _, rfl⟩
      simp at hc

theorem step_none_doneLeaves (st : WState) (e : PEvent)
    (hd : doneLeaves st) : doneLeaves (step none st e) := by
  cases e with
  | startNs px uri =>
    rw [step_startNs_eq]
    intro fr hfr c hc
    exact hd fr hfr c hc
  | openTag t tx =>
    rw [step_openTag_eq]
    intro fr hfr c hc
    simp only [List.mem_cons] at hfr
    rcases hfr with hfr | hfr
    · subst hfr; simp at hc
    · exact hd fr hfr c hc
  | closeTag =>
    rcases h : st.stack with _ | ⟨f, rest⟩
    · rw [step_close_nil none st h]; exact hd
    · exact step_close_match_doneLeaves none st f rest h rfl

theorem fold_none_doneLeaves (evs : List PEvent) :
    ∀ st : WState, doneLeaves st → doneLeaves (evs.foldl (step none) st) := by
  induction evs with
  | nil => intro st hd; exact hd
  | cons e rest ih =>
    intro st hd
    rw [List.foldl_cons]
    exact ih (step none st e) (step_none_doneLeaves st e hd)

theorem foldl_startNs_chunk (φ : Option String) (ds : List (String × String)) :
    ∀ st : WState,
      (ds.map (fun p => PEvent.startNs p.1 p.2)).foldl (step φ) st
        = { st with ns := ds.foldl observe st.ns } := by
  induction ds with
  | nil => intro st; rfl
  | cons p rest ih =>
    intro st
    rw [List.map_cons, List.foldl_cons, ih, step_startNs_eq, List.foldl_cons]

theorem step_close_tags (φ : Option String) (st : WState) (f : Frame) (rest : List Frame)
    (h : st.stack = f :: rest) (hne : rest ≠ []) :
    (step φ st PEvent.closeTag).stack.map Frame.tag = rest.map Frame.tag ∧
    (step φ st PEvent.closeTag).dispatches.map (fun dr => dr.elem.tag)
      = st.dispatches.map (fun dr => dr.elem.tag) ++ (if matchB φ f.tag then [f.tag] else []) := by
  rcases rest with _ | ⟨g, gs⟩
  · exact absurd rfl hne
  rcases hm : matchB φ f.tag with _ | _
  · rw [step_close_cons_nomatch φ st f g gs h hm]
    simp
  · rw [step_close_cons φ st f g gs h hm]
    constructor
    · simp [List.map_map]
    · simp [Elem.tag]

mutual

theorem runDoc_tags (φ : Option String) (d : XDoc) :
    ∀ st : WState, st.stack ≠ [] →
      ((docEvents d).foldl (step φ) st).stack.map Frame.tag = st.stack.map Frame.tag ∧
      ((docEvents d).foldl (step φ) st).dispatches.map (fun dr => dr.elem.tag)
        = st.dispatches.map (fun dr => dr.elem.tag) ++ (postTags d).filter (matchB φ) := by
  rcases d with ⟨ds, t, tx, cs⟩
  intro st hst
  rw [docEvents, List.foldl_append, foldl_startNs_chunk, List.foldl_cons, step_openTag_eq,
      List.foldl_append]
  set st2 : WState :=
    { stack := { tag := t, text := tx, done := [] } :: st.stack, ns := ds.foldl observe st.ns,
      kwargs := st.kwargs, sameObj := st.sameObj, args := st.args,
      dispatches := st.dispatches, rootOut := st.rootOut } with hst2
  obtain ⟨h1, h2⟩ := runDocL_tags φ cs st2 (by simp [hst2])
  set st3 := (docEventsL cs).foldl (step φ) st2 with hst3
  have hstack2 : st2.stack.map Frame.tag = t :: st.stack.map Frame.tag := by simp [hst2, Frame.tag]
  rw [hstack2] at h1
  rcases hs3 : st3.stack with _ | ⟨f3, rest3⟩
  · rw [hs3] at h1; simp at h1
  · rw [hs3] at h1
    simp only [List.map_cons, List.cons.injEq] at h1
    obtain ⟨hf3, hrest3⟩ := h1
    have hne3 : rest3 ≠ [] := by
      intro hcon
      rw [hcon] at hrest3
      exact hst (List.map_eq_nil_iff.mp hrest3.symm)
    obtain ⟨g1, g2⟩ := step_close_tags φ st3 f3 rest3 hs3 hne3
    constructor
    · rw [List.foldl_cons, List.foldl_nil, g1, hrest3]
    · rw [List.foldl_cons, List.foldl_nil, g2, h2, hf3, postTags, List.filter_append]
      have hfil : List.filter (matchB φ) [t] = if matchB φ t then [t] else [] := by
        cases hmt : matchB φ t <;> simp [List.filter, hmt]
      rw [hfil]
      simp [hst2]

theorem runDocL_tags (φ : Option String) (cs : XDocs) :
    ∀ st : WState, st.stack ≠ [] →
      ((docEventsL cs).foldl (step φ) st).stack.map Frame.tag = st.stack.map Frame.tag ∧
      ((docEventsL cs).foldl (step φ) st).dispatches.map (fun dr => dr.elem.tag)
        = st.dispatches.map (fun dr => dr.elem.tag) ++ (postTagsL cs).filter (matchB φ) := by
  rcases cs with _ | ⟨c, cs⟩
  · intro st hst
    rw [docEventsL]
    simp [postTagsL]
  · intro st hst
    rw [docEventsL, List.foldl_append]
    obtain ⟨h1, h2⟩ := runDoc_tags φ c st hst
    have hne : ((docEvents c).foldl (step φ) st).stack ≠ [] := by
      intro hcon
      rw [hcon] at h1
      exact hst (List.map_eq_nil_iff.mp h1.symm)
    obtain ⟨h3, h4⟩ := runDocL_tags φ cs ((docEvents c).foldl (step φ) st) hne
    refine ⟨h3.trans h1, ?_⟩
    rw [h4, h2, postTagsL, List.filter_append, List.append_assoc]

end

theorem step_close_root_tags (φ : Option String) (st : WState) (f : Frame)
    (h : st.stack = [f]) :
    (step φ st PEvent.closeTag).dispatches.map (fun dr => dr.elem.tag)
      = st.dispatches.map (fun dr => dr.elem.tag) ++ (if matchB φ f.tag then [f.tag] else []) := by
  rcases hm : matchB φ f.tag with _ | _
  · rw [step_close_root_nomatch φ st f h hm]
    simp
  · rw [step_close_root φ st f h hm]
    simp [Elem.tag]

theorem runDoc_from_empty (φ : Option String) (d : XDoc) (st : WState) (hstk : st.stack = []) :
    ((docEvents d).foldl (step φ) st).dispatches.map (fun dr => dr.elem.tag)
      = st.dispatches.map (fun dr => dr.elem.tag) ++ (postTags d).filter (matchB φ) := by
  rcases d with ⟨ds, t, tx, cs⟩
  rw [docEvents, List.foldl_append, foldl_startNs_chunk, List.foldl_cons, step_openTag_eq]
  show ((docEventsL cs ++ [PEvent.closeTag]).foldl (step φ)
      { stack := { tag := t, text := tx, done := [] } :: st.stack,
        ns := List.foldl observe st.ns ds, kwargs := st.kwargs, sameObj := st.sameObj,
        args := st.args, dispatches := st.dispatches, rootOut := st.rootOut }).dispatches.map
      (fun dr => dr.elem.tag)
    = st.dispatches.map (fun dr => dr.elem.tag)
        ++ (postTags (XDoc.node ds t tx cs)).filter (matchB φ)
  rw [List.foldl_append]
  set st2 : WState :=
    { stack := { tag := t, text := tx, done := [] } :: st.stack,
      ns := List.foldl observe st.ns ds, kwargs := st.kwargs, sameObj := st.sameObj,
      args := st.args, dispatches := st.dispatches, rootOut := st.rootOut } with hst2
  obtain ⟨h1, h2⟩ := runDocL_tags φ cs st2 (by simp [hst2])
  set st3 := (docEventsL cs).foldl (step φ) st2 with hst3
  have hstack2 : st2.stack.map Frame.tag = [t] := by
    rw [hst2]
    simp [hstk, Frame.tag]
  rw [hstack2] at h1
  rcases hs3 : st3.stack with _ | ⟨f3, rest3⟩
  · rw [hs3] at h1
    simp at h1
  · rw [hs3] at h1
    simp only [List.map_cons, List.cons.injEq] at h1
    obtain ⟨hf3, hrest3⟩ := h1
    have hrest3nil : rest3 = [] := List.map_eq_nil_iff.mp hrest3
    subst hrest3nil
    rw [List.foldl_cons, List.foldl_nil, step_close_root_tags φ st3 f3 hs3, h2, hf3, postTags,
        List.filter_append]
    have hfil : List.filter (matchB φ) [t] = if matchB φ t then [t] else [] := by
      cases hmt : matchB φ t <;> simp [List.filter, hmt]
    rw [hfil]
    simp [hst2]

/-- Claim C1: for every well-formed input document, the handler is
invoked once per element matching the tag filter (once per end event when
the filter is absent), in document end-event order, with no buffering or
reordering: the sequence of dispatched tags is exactly the post-order tag
sequence of the document filtered by the tag filter, and the number of
invocations is the number of matching elements. -/
theorem fast_iteration_dispatches_in_document_order (φ : Option String) (a : List String)
    (ck : Option (List (String × KwVal))) (d : XDoc) :
    (runDoc φ a ck d).dispatches.map (fun dr => dr.elem.tag) = (postTags d).filter (matchB φ) ∧
    (runDoc φ a ck d).dispatches.length = ((postTags d).filter (matchB φ)).length := by
  have main := runDoc_from_empty φ d (initState a ck) rfl
  have hinit : (initState a ck).dispatches = [] := rfl
  rw [hinit, List.map_nil, List.nil_append] at main
  refine ⟨main, ?_⟩
  have hlen := congrArg List.length main
  rwa [List.length_map] at hlen

theorem step_sameObj (φ : Option String) (st : WState) (e : PEvent) :
    (step φ st e).sameObj = st.sameObj := by
  cases e with
  | startNs px uri => rfl
  | openTag t tx => rfl
  | closeTag =>
    rcases h : st.stack with _ | ⟨f, rest⟩
    · rw [step_close_nil φ st h]
    · rcases hm : matchB φ f.tag with _ | _
      · rcases rest with _ | ⟨g, gs⟩
        · rw [step_close_root_nomatch φ st f h hm]
        · rw [step_close_cons_nomatch φ st f g gs h hm]
      · rcases rest with _ | ⟨g, gs⟩
        · rw [step_close_root φ st f h hm]
        · rw [step_close_cons φ st f g gs h hm]

theorem fold_sameObj (φ : Option String) (evs : List PEvent) :
    ∀ st : WState, (evs.foldl (step φ) st).sameObj = st.sameObj := by
  induction evs with
  | nil => intro st; rfl
  | cons e rest ih =>
    intro st
    rw [List.foldl_cons, ih, step_sameObj]

theorem fast_iteration_snoc_close (φ : Option String) (a : List String)
    (ck : Option (List (String × KwVal))) (evs : List PEvent) (f : Frame) (rest : List Frame)
    (h : (fast_iteration φ a ck evs).stack = f :: rest) (hm : matchB φ f.tag = true) :
    (fast_iteration φ a ck (evs ++ [PEvent.closeTag])).dispatches
      = (fast_iteration φ a ck evs).dispatches ++
        [{ elem := Elem.node f.tag f.text (Elems.ofList f.done), args := a,
           kwargs := if (fast_iteration φ a ck evs).ns = []
                     then (fast_iteration φ a ck evs).kwargs
                     else dictSet (fast_iteration φ a ck evs).kwargs "namespaces" KwVal.nsRef,
           nsNow := (fast_iteration φ a ck evs).ns }] := by
  have hargs : (fast_iteration φ a ck evs).args = a := fold_args φ evs (initState a ck)
  have hstep : fast_iteration φ a ck (evs ++ [PEvent.closeTag])
      = step φ (fast_iteration φ a ck evs) PEvent.closeTag := by
    simp only [fast_iteration, List.foldl_append, List.foldl_cons, List.foldl_nil]
  rw [hstep]
  rcases rest with _ | ⟨g, gs⟩
  · rw [step_close_root φ _ f h hm, hargs]
  · rw [step_close_cons φ _ f g gs h hm, hargs]

/-- The invariant that makes the aliasing claims provable: the value kept
under the `namespaces` key of the shared `callable_kwargs` dictionary is
always the reference to the one live `namespaces` dictionary, every
dispatched keyword dictionary agrees, a dispatched dictionary that holds
the key implies the shared dictionary holds it, and holding the key is
monotone along the dispatch sequence. -/
def kwInv (st : WState) : Prop :=
  (∀ v, dictGet st.kwargs "namespaces" = some v → v = KwVal.nsRef) ∧
  (∀ dr ∈ st.dispatches, ∀ v, dictGet dr.kwargs "namespaces" = some v → v = KwVal.nsRef) ∧
  (∀ dr ∈ st.dispatches, (dictGet dr.kwargs "namespaces").isSome = true →
      (dictGet st.kwargs "namespaces").isSome = true) ∧
  st.dispatches.Pairwise (fun d1 d2 => (dictGet d1.kwargs "namespaces").isSome = true →
      (dictGet d2.kwargs "namespaces").isSome = true)

theorem step_kwInv (φ : Option String) (st : WState) (e : PEvent)
    (h : kwInv st) : kwInv (step φ st e) := by
  obtain ⟨h1, h2, h3, h4⟩ := h
  cases e with
  | startNs px uri => exact ⟨h1, h2, h3, h4⟩
  | openTag t tx => exact ⟨h1, h2, h3, h4⟩
  | closeTag =>
    have hmerge : ∀ v,
        dictGet (if st.ns = [] then st.kwargs else dictSet st.kwargs "namespaces" KwVal.nsRef)
          "namespaces" = some v → v = KwVal.nsRef := by
      intro v hv
      by_cases hns : st.ns = []
      · rw [if_pos hns] at hv
        exact h1 v hv
      · rw [if_neg hns, dictGet_dictSet] at hv
        simpa using hv.symm
    have hmono : (dictGet st.kwargs "namespaces").isSome = true →
        (dictGet (if st.ns = [] then st.kwargs else dictSet st.kwargs "namespaces" KwVal.nsRef)
          "namespaces").isSome = true := by
      intro hs
      by_cases hns : st.ns = []
      · rwa [if_pos hns]
      · rw [if_neg hns, dictGet_dictSet]
        simp
    rcases hstk : st.stack with _ | ⟨f, rest⟩
    · rw [step_close_nil φ st hstk]
      exact ⟨h1, h2, h3, h4⟩
    · rcases hm : matchB φ f.tag with _ | _
      · rcases rest with _ | ⟨g, gs⟩
        · rw [step_close_root_nomatch φ st f hstk hm]
          exact ⟨h1, h2, h3, h4⟩
        · rw [step_close_cons_nomatch φ st f g gs hstk hm]
          exact ⟨h1, h2, h3, h4⟩
      · have hnew : kwInv
            { st with stack := [], kwargs := if st.ns = [] then st.kwargs
                        else dictSet st.kwargs "namespaces" KwVal.nsRef,
                      dispatches := st.dispatches ++
                        [{ elem := Elem.node f.tag f.text (Elems.ofList f.done), args := st.args,
                           kwargs := if st.ns = [] then st.kwargs
                             else dictSet st.kwargs "namespaces" KwVal.nsRef,
                           nsNow := st.ns }],
                      rootOut := some (Elem.node f.tag none Elems.nil) } := by
          refine ⟨hmerge, ?_, ?_, ?_⟩
          · intro dr hdr v hv
            simp only [List.mem_append, List.mem_singleton] at hdr
            rcases hdr with hdr | hdr
            · exact h2 dr hdr v hv
            · subst hdr
              exact hmerge v hv
          · intro dr hdr hs
            simp only [List.mem_append, List.mem_singleton] at hdr
            rcases hdr with hdr | hdr
            · exact hmono (h3 dr hdr hs)
            · subst hdr
              exact hs
          · rw [List.pairwise_append]
            refine ⟨h4, List.pairwise_singleton _ _, ?_⟩
            intro d1 hd1 d2 hd2 hs
            simp only [List.mem_singleton] at hd2
            subst hd2
            exact hmono (h3 d1 hd1 hs)
        rcases rest with _ | ⟨g, gs⟩
        · rw [step_close_root φ st f hstk hm]
          exact hnew
        · rw [step_close_cons φ st f g gs hstk hm]
          obtain ⟨n1, n2, n3, n4⟩ := hnew
          exact ⟨n1, n2, n3, n4⟩

theorem fold_kwInv (φ : Option String) (evs : List PEvent) :
    ∀ st : WState, kwInv st → kwInv (evs.foldl (step φ) st) := by
  induction evs with
  | nil => intro st h; exact h
  | cons e rest ih =>
    intro st h
    rw [List.foldl_cons]
    exact ih (step φ st e) (step_kwInv φ st e h)

/-- Claim C2, counterexample: with tag filter `r`, after the `start-ns`
event of `invariantBreakDoc` is fully processed (the sixth parse event),
the completed child `x` of the open root still holds its own child `y`,
so the set of nodes reachable from the root is strictly larger than the
open ancestors plus the completed children of open ancestors: the claimed
invariant fails at that point of the traversal. -/
theorem reachable_invariant_fails_under_tag_filter :
    ((docEvents invariantBreakDoc).take 6).getLast? = some (PEvent.startNs "p" "u") ∧
    ¬ doneLeaves (((docEvents invariantBreakDoc).take 6).foldl
        (step (some "r")) (initState [] none)) := by
  constructor
  · decide
  · decide

/-- Claim C2, amended: with no tag filter every end event prunes, and
after every parse event the nodes reachable from the root are exactly the
open ancestors plus childless completed children of open ancestors; with
a tag filter the same holds right after any dispatched end event is
processed (completed non-matching subtrees may stay reachable between
dispatches, as the counterexample shows). -/
theorem reachable_invariant_no_filter_and_after_dispatch :
    (∀ (a : List String) (ck : Option (List (String × KwVal))) (d : XDoc) (k : Nat),
      doneLeaves (((docEvents d).take k).foldl (step none) (initState a ck))) ∧
    (∀ (φ : Option String) (st : WState) (f : Frame) (rest : List Frame),
      st.stack = f :: rest → matchB φ f.tag = true →
      doneLeaves (step φ st PEvent.closeTag)) := by
  constructor
  · intro a ck d k
    refine fold_none_doneLeaves _ (initState a ck) ?_
    intro fr hfr
    simp [initState] at hfr
  · intro φ st f rest h hm
    exact step_close_match_doneLeaves φ st f rest h hm

/-- Witness for the amended claim C2 at concrete inputs. -/
theorem reachable_invariant_witness :
    doneLeaves (((docEvents pruneCompareDoc).take 3).foldl (step none) (initState [] none)) ∧
    doneLeaves (step (some "r")
      { stack := [{ tag := "r", text := none, done := [] },
                  { tag := "root", text := none, done := [Elem.node "x" none Elems.nil] }],
        ns := [], kwargs := [], sameObj := false, args := [], dispatches := [], rootOut := none }
      PEvent.closeTag) :=
  ⟨reachable_invariant_no_filter_and_after_dispatch.1 [] none pruneCompareDoc 3,
   reachable_invariant_no_filter_and_after_dispatch.2 (some "r") _ _ _ rfl (by decide)⟩

/-- Claim C3, counterexample: on `<root><x/><a><r/></a></root>` with tag
filter `r`, the code deletes the first child of the parent of each node
on the root path (removing `x` and keeping the cleared `r` under `a`),
while the mechanism worded in the claim deletes the first child of the
ancestor itself (removing the cleared `r` from `a` and keeping `x`): the
two final trees differ, so the claimed mechanism is not the one the code
implements. -/
theorem prune_mechanism_differs_from_claim :
    (runDoc (some "r") [] none pruneCompareDoc).rootOut
      = some (Elem.node "root" none (Elems.cons
          (Elem.node "a" none (Elems.cons (Elem.node "r" none Elems.nil) Elems.nil))
          Elems.nil)) ∧
    (runClaimedDoc (some "r") [] none pruneCompareDoc).rootOut
      = some (Elem.node "root" none (Elems.cons (Elem.node "x" none Elems.nil)
          (Elems.cons (Elem.node "a" none Elems.nil) Elems.nil))) ∧
    (runDoc (some "r") [] none pruneCompareDoc).rootOut
      ≠ (runClaimedDoc (some "r") [] none pruneCompareDoc).rootOut := by
  refine ⟨by decide, by decide, by decide⟩

/-- Claim C3, amended: after a dispatched end event the walker clears the
element (children and text dropped) and, for each node on the path from
the element to the root, repeatedly deletes the first child of the parent
of that node while the node still has a preceding sibling; the parent
then holds exactly the cleared element, every deeper open ancestor has
all earlier-completed left siblings discarded, and the open chain itself
is untouched. -/
theorem prune_discards_left_siblings_of_root_path (φ : Option String) (st : WState)
    (f g : Frame) (gs : List Frame) (h : st.stack = f :: g :: gs)
    (hm : matchB φ f.tag = true) :
    (step φ st PEvent.closeTag).stack.head?
      = some { g with done := [Elem.node f.tag none Elems.nil] } ∧
    (∀ fr ∈ (step φ st PEvent.closeTag).stack.tail, fr.done = []) ∧
    (step φ st PEvent.closeTag).stack.map Frame.tag = Frame.tag g :: gs.map Frame.tag ∧
    (step φ st PEvent.closeTag).dispatches
      = st.dispatches ++
        [{ elem := Elem.node f.tag f.text (Elems.ofList f.done), args := st.args,
           kwargs := if st.ns = [] then st.kwargs
                     else dictSet st.kwargs "namespaces" KwVal.nsRef,
           nsNow := st.ns }] := by
  rw [step_close_cons φ st f g gs h hm]
  refine ⟨rfl, ?_, ?_, rfl⟩
  · intro fr hfr
    simp only [List.tail_cons] at hfr
    rcases List.mem_map.mp hfr with ⟨fr0, _, rfl⟩
    rfl
  · simp [List.map_map]

/-- Witness for the amended claim C3 at a concrete pre-close state. -/
theorem prune_discards_left_siblings_witness :
    (step (some "r")
      { stack := [{ tag := "r", text := none, done := [] },
                  { tag := "a", text := none, done := [] },
                  { tag := "root", text := none, done := [Elem.node "x" none Elems.nil] }],
        ns := [], kwargs := [], sameObj := false, args := [], dispatches := [], rootOut := none }
      PEvent.closeTag).stack.head?
      = some { tag := "a", text := none, done := [Elem.node "r" none Elems.nil] } ∧
    (∀ fr ∈ (step (some "r")
      { stack := [{ tag := "r", text := none, done := [] },
                  { tag := "a", text := none, done := [] },
                  { tag := "root", text := none, done := [Elem.node "x" none Elems.nil] }],
        ns := [], kwargs := [], sameObj := false, args := [], dispatches := [], rootOut := none }
      PEvent.closeTag).stack.tail, fr.done = []) :=
  ⟨(prune_discards_left_siblings_of_root_path (some "r") _ _ _ _ rfl (by decide)).1,
   (prune_discards_left_siblings_of_root_path (some "r") _ _ _ _ rfl (by decide)).2.1⟩

/-- Claim C4, counterexample: on `nsAliasDoc` the first handler
invocation is given the `namespaces` dictionary by reference, not by
value: the mapping contained `a -> u1` at that dispatch, but the
reference delivered to the handler, dereferenced against the final state
of the run, also contains the binding `b -> u2` declared only after the
dispatch — so the state a handler that keeps its argument sees is not the
state as of its end event. -/
theorem ns_snapshot_not_by_value :
    ((runDoc none [] none nsAliasDoc).dispatches.headD dispDefault).nsNow = [("a", "u1")] ∧
    dictGet ((runDoc none [] none nsAliasDoc).dispatches.headD dispDefault).kwargs "namespaces"
      = some KwVal.nsRef ∧
    derefKw (runDoc none [] none nsAliasDoc).ns
        (dictGet ((runDoc none [] none nsAliasDoc).dispatches.headD dispDefault).kwargs
          "namespaces")
      = some [("a", "u1"), ("b", "u2")] ∧
    derefKw (runDoc none [] none nsAliasDoc).ns
        (dictGet ((runDoc none [] none nsAliasDoc).dispatches.headD dispDefault).kwargs
          "namespaces")
      ≠ some (((runDoc none [] none nsAliasDoc).dispatches.headD dispDefault).nsNow) := by
  refine ⟨by decide, by decide, by decide, by decide⟩

/-- Claim C4, amended: the mapping recorded at a dispatched end event
contains exactly the bindings of the `start-ns` events observed at or
before that dispatch (the end event itself declares nothing), but it is
delivered as the live mutable dictionary, whose contents at any later
point accumulate the namespace events seen by then. -/
theorem ns_snapshot_exact_at_dispatch (φ : Option String) (a : List String)
    (ck : Option (List (String × KwVal))) (evs : List PEvent) (f : Frame) (rest : List Frame)
    (h : (fast_iteration φ a ck evs).stack = f :: rest) (hm : matchB φ f.tag = true) :
    (fast_iteration φ a ck (evs ++ [PEvent.closeTag])).dispatches
      = (fast_iteration φ a ck evs).dispatches ++
        [{ elem := Elem.node f.tag f.text (Elems.ofList f.done), args := a,
           kwargs := if (fast_iteration φ a ck evs).ns = []
                     then (fast_iteration φ a ck evs).kwargs
                     else dictSet (fast_iteration φ a ck evs).kwargs "namespaces" KwVal.nsRef,
           nsNow := (fast_iteration φ a ck evs).ns }] ∧
    (fast_iteration φ a ck evs).ns = nsAccum (nsEventsOf evs) ∧
    nsEventsOf (evs ++ [PEvent.closeTag]) = nsEventsOf evs ∧
    (∀ more : List PEvent,
      (fast_iteration φ a ck (evs ++ PEvent.closeTag :: more)).ns
        = nsAccum (nsEventsOf evs ++ nsEventsOf more)) := by
  refine ⟨fast_iteration_snoc_close φ a ck evs f rest h hm, ?_, ?_, ?_⟩
  · rw [fast_iteration, fold_ns]
    rfl
  · rw [nsEventsOf_append]
    simp [nsEventsOf]
  · intro more
    rw [fast_iteration, fold_ns]
    have : nsEventsOf (evs ++ PEvent.closeTag :: more) = nsEventsOf evs ++ nsEventsOf more := by
      rw [nsEventsOf_append]
      simp [nsEventsOf]
    rw [this]
    rfl

/-- Witness for the amended claim C4 at a concrete run prefix. -/
theorem ns_snapshot_exact_witness :
    (fast_iteration none [] none
        ([PEvent.startNs "a" "u1", PEvent.openTag "root" none, PEvent.openTag "e1" none]
          ++ [PEvent.closeTag])).dispatches
      = [{ elem := Elem.node "e1" none Elems.nil, args := [],
           kwargs := [("namespaces", KwVal.nsRef)], nsNow := [("a", "u1")] }] ∧
    (fast_iteration none [] none
        [PEvent.startNs "a" "u1", PEvent.openTag "root" none, PEvent.openTag "e1" none]).ns
      = nsAccum (nsEventsOf
          [PEvent.startNs "a" "u1", PEvent.openTag "root" none, PEvent.openTag "e1" none]) := by
  have main := ns_snapshot_exact_at_dispatch none [] none
    [PEvent.startNs "a" "u1", PEvent.openTag "root" none, PEvent.openTag "e1" none]
    { tag := "e1", text := none, done := [] }
    [{ tag := "root", text := none, done := [] }] (by decide) (by decide)
  exact ⟨by rw [main.1]; decide, main.2.1⟩

/-- Claim C5: on the document
`<root><r><c1>A</c1><c2>B</c2></r><r><c1>C</c1><c2>D</c2></r></root>`
with tag filter `r`, the walker dispatches the two matched elements, and
the row-writing part of the handler would produce exactly the rows `A;B`
then `C;D` — but the provided handler first evaluates
`element.xpath("ns:c1/text()", namespaces=None)` for its debugging print,
which raises `XPathEvalError` (undefined prefix `ns`) at the first
dispatch because the document declares no namespace, so the run aborts
with no row written instead of completing with the two rows. -/
theorem csv_example_run_fails_on_xpath_print :
    runCsvSession csvExampleDoc (some "r") = Except.error HErr.xpathUndefinedPrefix ∧
    (runDoc (some "r") [] (some [("csv_file", KwVal.s "out.csv")]) csvExampleDoc).dispatches.length
      = 2 ∧
    (runDoc (some "r") [] (some [("csv_file", KwVal.s "out.csv")]) csvExampleDoc).dispatches.foldl
        (fun lines dr => specRowHandler lines dr.elem) []
      = ["A;B", "C;D"] := by
  refine ⟨by rfl, by decide, by decide⟩

/-- Claim C6: at each dispatch the namespace mapping is merged into the
keyword arguments only if it is non-empty, and the handler receives the
element, the fixed positional arguments in order, and the merged keyword
dictionary; when no namespace has been observed by the dispatch the
keyword dictionary is exactly the one the caller configured, so it holds
no `namespaces` entry (given that the caller did not put one there). -/
theorem dispatch_merges_namespaces_only_if_nonempty (φ : Option String) (a : List String)
    (ck : Option (List (String × KwVal))) (evs : List PEvent) (f : Frame) (rest : List Frame)
    (h : (fast_iteration φ a ck evs).stack = f :: rest) (hm : matchB φ f.tag = true)
    (hck : dictGet (initState a ck).kwargs "namespaces" = none) :
    (fast_iteration φ a ck (evs ++ [PEvent.closeTag])).dispatches
      = (fast_iteration φ a ck evs).dispatches ++
        [{ elem := Elem.node f.tag f.text (Elems.ofList f.done), args := a,
           kwargs := if (fast_iteration φ a ck evs).ns = []
                     then (fast_iteration φ a ck evs).kwargs
                     else dictSet (fast_iteration φ a ck evs).kwargs "namespaces" KwVal.nsRef,
           nsNow := (fast_iteration φ a ck evs).ns }] ∧
    ((fast_iteration φ a ck evs).ns = [] →
      (fast_iteration φ a ck evs).kwargs = (initState a ck).kwargs ∧
      dictGet (fast_iteration φ a ck evs).kwargs "namespaces" = none) := by
  refine ⟨fast_iteration_snoc_close φ a ck evs f rest h hm, ?_⟩
  intro hns
  have hkw := (fold_ns_nil φ evs (initState a ck) hns).2
  rw [fast_iteration, hkw]
  exact ⟨rfl, hck⟩

/-- Witness for claim C6 at a concrete run with no namespace events. -/
theorem dispatch_merge_witness :
    (fast_iteration (some "r") ["fixed"] (some [("csv_file", KwVal.s "out.csv")])
        ([PEvent.openTag "root" none, PEvent.openTag "r" none] ++ [PEvent.closeTag])).dispatches
      = [{ elem := Elem.node "r" none Elems.nil, args := ["fixed"],
           kwargs := [("csv_file", KwVal.s "out.csv")], nsNow := [] }] ∧
    dictGet (fast_iteration (some "r") ["fixed"] (some [("csv_file", KwVal.s "out.csv")])
        [PEvent.openTag "root" none, PEvent.openTag "r" none]).kwargs "namespaces" = none := by
  have main := dispatch_merges_namespaces_only_if_nonempty (some "r") ["fixed"]
    (some [("csv_file", KwVal.s "out.csv")])
    [PEvent.openTag "root" none, PEvent.openTag "r" none]
    { tag := "r", text := none, done := [] }
    [{ tag := "root", text := none, done := [] }] (by decide) (by decide) (by decide)
  refine ⟨by rw [main.1]; decide, (main.2 (by decide)).2⟩

/-- Claim C7: the namespace registry as the run maintains it only grows —
a key present after any prefix of the events is still present at the end;
an empty declaration is stored under the literal key `ns`; and the value
found for a key is the one of the last observation for that key. -/
theorem namespace_registry_monotone_normalized_last_wins (φ : Option String) (a : List String)
    (ck : Option (List (String × KwVal))) (evs : List PEvent) :
    (∀ (k : Nat) (key : String),
      (dictGet (fast_iteration φ a ck (evs.take k)).ns key).isSome = true →
      (dictGet (fast_iteration φ a ck evs).ns key).isSome = true) ∧
    (∀ uri : String,
      dictGet (fast_iteration φ a ck (evs ++ [PEvent.startNs "" uri])).ns "ns" = some uri) ∧
    (∀ key : String,
      dictGet (fast_iteration φ a ck evs).ns key = lastBinding (nsEventsOf evs) key) := by
  have hrun : ∀ l : List PEvent,
      (fast_iteration φ a ck l).ns = (nsEventsOf l).foldl observe [] := by
    intro l
    rw [fast_iteration, fold_ns]
    rfl
  have hget : ∀ (l : List PEvent) (key : String),
      dictGet (fast_iteration φ a ck l).ns key = lastBinding (nsEventsOf l) key := by
    intro l key
    rw [hrun l, dictGet_foldl_observe]
    rcases lastBinding (nsEventsOf l) key with _ | v <;> simp [Option.or, dictGet]
  refine ⟨?_, ?_, hget evs⟩
  · intro k key hk
    rw [hget] at hk ⊢
    have hsplit : nsEventsOf evs = nsEventsOf (evs.take k) ++ nsEventsOf (evs.drop k) := by
      rw [← nsEventsOf_append, List.take_append_drop]
    rw [hsplit, lastBinding_append]
    rcases lastBinding (nsEventsOf (evs.drop k)) key with _ | v
    · simpa [Option.or] using hk
    · simp [Option.or]
  · intro uri
    rw [hget, nsEventsOf_append, lastBinding_append]
    simp [nsEventsOf, lastBinding, Option.or]

/-- Witness for claim C7 at a concrete event sequence with a redeclared
prefix and an empty prefix. -/
theorem namespace_registry_witness :
    (dictGet (fast_iteration none [] none
        [PEvent.startNs "a" "u1", PEvent.openTag "root" none]).ns "a").isSome = true ∧
    dictGet (fast_iteration none [] none
        ([PEvent.startNs "a" "u1", PEvent.startNs "a" "u2"] ++ [PEvent.startNs "" "u3"])).ns "ns"
      = some "u3" ∧
    dictGet (fast_iteration none [] none
        [PEvent.startNs "a" "u1", PEvent.startNs "a" "u2"]).ns "a"
      = lastBinding (nsEventsOf [PEvent.startNs "a" "u1", PEvent.startNs "a" "u2"]) "a" :=
  ⟨(namespace_registry_monotone_normalized_last_wins none [] none
      [PEvent.startNs "a" "u1", PEvent.openTag "root" none]).1 1 "a" (by decide),
   (namespace_registry_monotone_normalized_last_wins none [] none
      [PEvent.startNs "a" "u1", PEvent.startNs "a" "u2"]).2.1 "u3",
   (namespace_registry_monotone_normalized_last_wins none [] none
      [PEvent.startNs "a" "u1", PEvent.startNs "a" "u2"]).2.2 "a"⟩

/-- Claim C8: for a well-configured session (callable handler, schema
absent or compiling), a missing or zero-length input path makes the
constructor fail with the empty-or-missing-input error before any
parsing, so no event is produced and no handler invoked; an existing
non-empty file passes the guard and the iteration runs. -/
theorem input_guard_rejects_empty_or_missing (fs : FS) (path : String) (schema : SchemaArg)
    (φ : Option String) (a : List String) (ck : Option (List (String × KwVal))) (d : XDoc)
    (hs : schema ≠ SchemaArg.malformed) :
    ((fs.size path = none ∨ fs.size path = some 0) →
      xmlParserInit true schema fs path φ a ck d
        = Except.error InitError.emptyOrMissingInput) ∧
    (∀ n : Nat, fs.size path = some n → 0 < n →
      xmlParserInit true schema fs path φ a ck d = Except.ok (runDoc φ a ck d)) := by
  constructor
  · intro hcase
    have hg : is_non_empty_file fs path = false := by
      rcases hcase with hc | hc <;> simp [is_non_empty_file, hc]
    simp [xmlParserInit, hs, hg]
  · intro n hn hpos
    have hg : is_non_empty_file fs path = true := by
      simp [is_non_empty_file, hn, hpos]
    simp [xmlParserInit, hs, hg]

/-- Witness for claim C8: a zero-byte file is rejected, a five-byte file
is accepted and parsed. -/
theorem input_guard_witness :
    xmlParserInit true SchemaArg.noSchema
      { size := fun p => if p = "empty.xml" then some 0 else none, locked := fun _ => false }
      "empty.xml" (some "r") [] none csvExampleDoc
      = Except.error InitError.emptyOrMissingInput ∧
    xmlParserInit true SchemaArg.noSchema
      { size := fun p => if p = "in.xml" then some 5 else none, locked := fun _ => false }
      "in.xml" (some "r") [] none csvExampleDoc
      = Except.ok (runDoc (some "r") [] none csvExampleDoc) :=
  ⟨(input_guard_rejects_empty_or_missing _ "empty.xml" SchemaArg.noSchema (some "r") [] none
      csvExampleDoc (by decide)).1 (Or.inr rfl),
   (input_guard_rejects_empty_or_missing _ "in.xml" SchemaArg.noSchema (some "r") [] none
      csvExampleDoc (by decide)).2 5 rfl (by decide)⟩

/-- Claim C9: `delete_file` never raises — every outcome of the
underlying removal ends in a normal return.  Deleting a missing path is
silent success (idempotent); a permission-style failure is reported in
the printed output but still returns normally; a successful removal
deletes the file and reports it. -/
theorem delete_file_never_raises_and_is_idempotent (fs : FS) (file : String) :
    (∃ r : FS × List String, delete_file fs file = Except.ok r) ∧
    (fs.size file = none → delete_file fs file = Except.ok (fs, [])) ∧
    (∀ sz : Nat, fs.size file = some sz → fs.locked file = true →
      delete_file fs file = Except.ok (fs, [os_error_str 13 file ++ "."])) ∧
    (∀ sz : Nat, fs.size file = some sz → fs.locked file = false →
      ∃ fs2 : FS, delete_file fs file = Except.ok (fs2, ["File deleted: " ++ file ++ "."]) ∧
        fs2.size file = none) := by
  refine ⟨?_, ?_, ?_, ?_⟩
  · rcases hsz : fs.size file with _ | sz
    · exact ⟨(fs, []), by simp [delete_file, os_remove, hsz]⟩
    · rcases hlock : fs.locked file with _ | _
      · exact ⟨({ fs with size := fun p => if p = file then none else fs.size p },
            ["File deleted: " ++ file ++ "."]), by simp [delete_file, os_remove, hsz, hlock]⟩
      · exact ⟨(fs, [os_error_str 13 file ++ "."]),
            by simp [delete_file, os_remove, hsz, hlock]⟩
  · intro h
    simp [delete_file, os_remove, h]
  · intro sz h hl
    simp [delete_file, os_remove, h, hl]
  · intro sz h hl
    exact ⟨{ fs with size := fun p => if p = file then none else fs.size p },
      by simp [delete_file, os_remove, h, hl], by simp⟩

/-- Witness for claim C9: deleting a missing path, a locked path, and a
present unlocked path. -/
theorem delete_file_witness :
    delete_file { size := fun _ => none, locked := fun _ => false } "gone.csv"
      = Except.ok ({ size := fun _ => none, locked := fun _ => false }, []) ∧
    delete_file { size := fun _ => some 3, locked := fun _ => true } "busy.csv"
      = Except.ok ({ size := fun _ => some 3, locked := fun _ => true },
          [os_error_str 13 "busy.csv" ++ "."]) ∧
    (∃ fs2 : FS,
      delete_file { size := fun _ => some 3, locked := fun _ => false } "out.csv"
        = Except.ok (fs2, ["File deleted: " ++ "out.csv" ++ "."]) ∧
      fs2.size "out.csv" = none) :=
  ⟨(delete_file_never_raises_and_is_idempotent
      { size := fun _ => none, locked := fun _ => false } "gone.csv").2.1 rfl,
   (delete_file_never_raises_and_is_idempotent
      { size := fun _ => some 3, locked := fun _ => true } "busy.csv").2.2.1 3 rfl rfl,
   (delete_file_never_raises_and_is_idempotent
      { size := fun _ => some 3, locked := fun _ => false } "out.csv").2.2.2 3 rfl rfl⟩

/-- Claim C10: when the caller supplies a non-empty keyword dictionary
(with no `namespaces` entry of its own), the walker keeps and mutates
that very dictionary; every dispatched keyword dictionary stores, under
`namespaces`, the reference to the one live namespace dictionary; once a
dispatch carries the key every later dispatch does too; a dispatch
carrying the key means the shared caller dictionary holds it; and the
contents the shared reference points to keep accumulating the namespace
events that arrive after any prefix of the run. -/
theorem kwargs_shared_mutation_aliasing (φ : Option String) (a : List String)
    (k0 : List (String × KwVal)) (evs : List PEvent)
    (hk0 : k0 ≠ []) (hck : dictGet k0 "namespaces" = none) :
    (fast_iteration φ a (some k0) evs).sameObj = true ∧
    (∀ dr ∈ (fast_iteration φ a (some k0) evs).dispatches, ∀ v : KwVal,
      dictGet dr.kwargs "namespaces" = some v → v = KwVal.nsRef) ∧
    (fast_iteration φ a (some k0) evs).dispatches.Pairwise
      (fun d1 d2 => (dictGet d1.kwargs "namespaces").isSome = true →
        (dictGet d2.kwargs "namespaces").isSome = true) ∧
    (∀ dr ∈ (fast_iteration φ a (some k0) evs).dispatches,
      (dictGet dr.kwargs "namespaces").isSome = true →
      (dictGet (fast_iteration φ a (some k0) evs).kwargs "namespaces").isSome = true) ∧
    (∀ more : List PEvent,
      (fast_iteration φ a (some k0) (evs ++ more)).ns
        = nsAccum (nsEventsOf evs ++ nsEventsOf more)) := by
  have hinitkw : (initState a (some k0)).kwargs = k0 := by
    simp [initState, hk0]
  have hinit : kwInv (initState a (some k0)) := by
    refine ⟨?_, ?_, ?_, ?_⟩
    · intro v hv
      rw [hinitkw, hck] at hv
      cases hv
    · intro dr hdr
      simp [initState] at hdr
    · intro dr hdr
      simp [initState] at hdr
    · simp [initState]
  obtain ⟨i1, i2, i3, i4⟩ := fold_kwInv φ evs (initState a (some k0)) hinit
  refine ⟨?_, i2, i4, i3, ?_⟩
  · rw [fast_iteration, fold_sameObj]
    simp [initState, hk0]
  · intro more
    rw [fast_iteration, fold_ns, nsEventsOf_append]
    rfl

/-- Witness for claim C10 at a concrete run. -/
theorem kwargs_shared_mutation_witness :
    (fast_iteration none [] (some [("csv_file", KwVal.s "out.csv")])
        [PEvent.startNs "a" "u1", PEvent.openTag "root" none, PEvent.closeTag]).sameObj = true ∧
    (fast_iteration none [] (some [("csv_file", KwVal.s "out.csv")])
        ([PEvent.startNs "a" "u1", PEvent.openTag "root" none, PEvent.closeTag] ++
          [PEvent.startNs "b" "u2"])).ns
      = nsAccum (nsEventsOf
            [PEvent.startNs "a" "u1", PEvent.openTag "root" none, PEvent.closeTag]
          ++ nsEventsOf [PEvent.startNs "b" "u2"]) :=
  ⟨(kwargs_shared_mutation_aliasing none [] [("csv_file", KwVal.s "out.csv")]
      [PEvent.startNs "a" "u1", PEvent.openTag "root" none, PEvent.closeTag]
      (by decide) (by decide)).1,
   (kwargs_shared_mutation_aliasing none [] [("csv_file", KwVal.s "out.csv")]
      [PEvent.startNs "a" "u1", PEvent.openTag "root" none, PEvent.closeTag]
      (by decide) (by decide)).2.2.2.2 [PEvent.startNs "b" "u2"]⟩
